import Mathlib

/-!
Verification of the youtube-transcript-backend repository.

Strings manipulated by the transcript pipeline are modelled as `List Char`
(Python `str` values are sequences of code points).  The regular-expression
operations used by the code — `re.sub(r'\s+', ' ', s)`, `str.strip()`,
`re.sub(r'\[.*?\]', '', s)` and the video-id patterns — are embedded as
executable functions on `List Char` below, following their Python semantics
on the ASCII inputs the code handles.
-/

namespace YTBackend

/-- Python `\s` / `str.strip()` whitespace (ASCII part): space, tab,
newline, carriage return, form feed, vertical tab. -/
def isWS (c : Char) : Bool :=
  c = ' ' || c = '\t' || c = '\n' || c = '\r' || c = '\x0c' || c = '\x0b'

theorem dropWhileLenLe (p : Char → Bool) (l : List Char) :
    (l.dropWhile p).length ≤ l.length := by
  induction l with
  | nil => simp
  | cons c rest ih =>
    by_cases hc : p c
    · simp [List.dropWhile, hc]
      exact Nat.le_succ_of_le ih
    · simp [List.dropWhile, hc]

/-- `re.sub(r'\s+', ' ', s)`: every maximal run of whitespace becomes one
single space. -/
def collapse : List Char → List Char
  | [] => []
  | c :: rest =>
    if isWS c then ' ' :: collapse (rest.dropWhile isWS)
    else c :: collapse rest
termination_by s => s.length
decreasing_by
  · simpa [Nat.lt_succ_iff] using
      (Nat.le_trans (dropWhileLenLe isWS rest) (Nat.le_refl rest.length))
  · exact Nat.lt_succ_self _

/-- `str.lstrip()` on whitespace. -/
def trimLeft (s : List Char) : List Char := s.dropWhile isWS

/-- `str.rstrip()` on whitespace. -/
def trimRight (s : List Char) : List Char := (s.reverse.dropWhile isWS).reverse

/-- Python `str.strip()`: drop leading and trailing whitespace. -/
def trim (s : List Char) : List Char := trimRight (trimLeft s)

/-- Scan for the first `]` in the list, failing at a newline (the `.` of the
pattern `\[.*?\]` does not match newlines); on success return what follows
the `]`. -/
def findClose : List Char → Option (List Char)
  | [] => none
  | c :: rest => if c = ']' then some rest else if c = '\n' then none else findClose rest

theorem findClose_length {l l' : List Char} (h : findClose l = some l') :
    l'.length < l.length := by
  induction l with
  | nil => simp [findClose] at h
  | cons c rest ih =>
    by_cases hc : c = ']'
    · simp [findClose, hc] at h
      subst h; simp
    · by_cases hn : c = '\n'
      · simp [findClose, hc, hn] at h
      · simp [findClose, hc, hn] at h
        exact Nat.lt_succ_of_lt (ih h)

/-- `re.sub(r'\[.*?\]', '', s)`: remove every lazily matched bracketed
annotation, scanning left to right; a `[` with no `]` before the next
newline is kept. -/
def stripBrackets : List Char → List Char
  | [] => []
  | c :: rest =>
    if c = '[' then
      match h : findClose rest with
      | some rest' => stripBrackets rest'
      | none => c :: stripBrackets rest
    else c :: stripBrackets rest
termination_by s => s.length
decreasing_by
  · exact Nat.lt_succ_of_lt (findClose_length h)
  · exact Nat.lt_succ_self _
  · exact Nat.lt_succ_self _

/-- Python `' '.join(ts)`. -/
def joinSpace : List (List Char) → List Char
  | [] => []
  | [t] => t
  | t :: ts => t ++ ' ' :: joinSpace ts

/-- The whitespace-separated words of a string (proof-side canonical form
for the collapse/trim pipeline; not itself part of the embedded code). -/
def words : List Char → List (List Char)
  | [] => []
  | c :: rest =>
    if isWS c then words rest
    else
      match rest with
      | [] => [[c]]
      | d :: _ =>
        if isWS d then [c] :: words rest
        else
          match words rest with
          | [] => [[c]]
          | w :: ws' => (c :: w) :: ws'

/-- Join words back with single spaces (proof-side). -/
def unwords : List (List Char) → List Char
  | [] => []
  | [w] => w
  | w :: ws' => w ++ ' ' :: unwords ws'

/-- Words of a list of strings, concatenated in order (proof-side). -/
def wordsOf : List (List Char) → List (List Char)
  | [] => []
  | t :: ts => words t ++ wordsOf ts

/-!
## Transcript service (src/services/transcript_service.py)

The caption source consumed by `get_transcript` is the external
youtube-transcript-api capability described abstractly in §6 of the spec
(`list`, `fetch`, `translate`).  A `Track` carries what the source exposes
for one caption candidate: its metadata, the entries `fetch` returns, and
the outcome of `translate('en')` (whether it succeeds, and the entries the
translated track would yield).
-/

/-- One timed caption entry, as returned by the caption source's `fetch`:
the raw text plus the timing values.  The code never computes with the
timing floats — it only copies them — so they are modelled by an opaque
integer carrier. -/
structure Entry where
  text : List Char
  start : Int
  duration : Int
deriving DecidableEq, Repr

/-- One output segment of `get_transcript(..., include_timestamps=True)`. -/
structure Segment where
  text : List Char
  start : Int
  duration : Int
deriving DecidableEq, Repr

/-- Modelled from the spec: one caption track of the external Caption
Source capability (§6) — `language_code`, `is_generated`, `is_translatable`
as listed, `entries` as what `fetch()` on this track returns, and
`translate_ok` / `translated_entries` as the outcome of `translate('en')`
on this track (the library call may fail). -/
structure Track where
  language_code : List Char
  is_generated : Bool
  is_translatable : Bool
  entries : List Entry
  translate_ok : Bool
  translated_entries : List Entry
deriving DecidableEq, Repr

/-- The language priority list passed to both English tiers in
`get_transcript`. -/
def englishCodes : List (List Char) := ["en".toList, "en-US".toList, "en-GB".toList]

/-- Modelled from the spec: the caption source's
`find_manually_created_transcript` / `find_generated_transcript` lookup
(§4.2 tiers 1 and 2): for each requested language code in priority order,
the first listed track of the requested provenance with that code. -/
def findTranscript (generated : Bool) (langs : List (List Char)) (tracks : List Track) :
    Option Track :=
  langs.findSome? fun l =>
    tracks.find? fun t => t.is_generated == generated && t.language_code == l

/-- The track selection made inside `get_transcript`, together with the
`language` / `is_generated` variables it maintains.  `translated` records
whether the tier-3 `transcript.translate('en')` call was applied
successfully (the code's "Translated to English" path). -/
structure Chosen where
  entries : List Entry
  language : List Char
  is_generated : Bool
  translated : Bool
deriving DecidableEq, Repr

/-- Python `language.startswith('en')`. -/
def startsWithEn (code : List Char) : Bool := "en".toList.isPrefixOf code

/-- The selection logic of `get_transcript` (lines 30–78): manual-English
tier, then generated-English tier, then the first enumerated track with a
best-effort translation to English whose failure is swallowed; `none`
models the raised "No transcript available" exception. -/
def chooseTrack (tracks : List Track) : Option Chosen :=
  match findTranscript false englishCodes tracks with
  | some t => some ⟨t.entries, t.language_code, false, false⟩
  | none =>
    match findTranscript true englishCodes tracks with
    | some t => some ⟨t.entries, t.language_code, true, false⟩
    | none =>
      match tracks with
      | [] => none
      | t :: _ =>
        if !startsWithEn t.language_code && t.is_translatable then
          if t.translate_ok then some ⟨t.translated_entries, "en".toList, t.is_generated, true⟩
          else some ⟨t.entries, t.language_code, t.is_generated, false⟩
        else some ⟨t.entries, t.language_code, t.is_generated, false⟩

/-- The plain-text normalization of `get_transcript` (lines 96–99):
`' '.join(texts)`, then `re.sub(r'\s+', ' ', ...)`, then `.strip()`, then
`re.sub(r'\[.*?\]', '', ...)`. -/
def plainText (entries : List Entry) : List Char :=
  stripBrackets (trim (collapse (joinSpace (entries.map Entry.text))))

/-- The segment normalization of `get_transcript` (lines 85–94): per entry,
`re.sub(r'\[.*?\]', '', entry.text).strip()`; keep the entry only if the
cleaned text is non-empty, copying `start` and `duration` through. -/
def segmentsOf (entries : List Entry) : List Segment :=
  entries.filterMap fun e =>
    let t := trim (stripBrackets e.text)
    if t = [] then none else some ⟨t, e.start, e.duration⟩

/-- The `(transcript_text_or_segments, language_code, is_generated)` tuple
returned by `get_transcript`, in its two shapes. -/
inductive TranscriptResult where
  | plain (text : List Char) (language : List Char) (is_generated : Bool)
  | seg (segments : List Segment) (language : List Char) (is_generated : Bool)
deriving DecidableEq, Repr

/-- `get_transcript(video_id, include_timestamps)` as a function of the
caption listing the source returns for the video; `none` models the raised
no-transcript exception. -/
def get_transcript (tracks : List Track) (include_timestamps : Bool) :
    Option TranscriptResult :=
  match chooseTrack tracks with
  | none => none
  | some c =>
    if include_timestamps then
      some (.seg (segmentsOf c.entries) c.language c.is_generated)
    else
      some (.plain (plainText c.entries) c.language c.is_generated)

/-!
## Validators (src/utils/validators.py)
-/

/-- The character class `[a-zA-Z0-9_-]` of the video-id patterns. -/
def isIdChar (c : Char) : Bool :=
  ('a' ≤ c && c ≤ 'z') || ('A' ≤ c && c ≤ 'Z') || ('0' ≤ c && c ≤ '9') || c = '_' || c = '-'

/-- The literal prefixes of the five URL patterns of `extract_video_id`,
in their priority order. -/
def urlPatterns : List (List Char) :=
  ["youtube.com/watch?v=".toList,
   "youtu.be/".toList,
   "youtube.com/embed/".toList,
   "youtube.com/v/".toList,
   "youtube.com/shorts/".toList]

/-- Try one pattern `lit ++ [a-zA-Z0-9_-]{11}` at the start of `s`,
returning the captured group: the literal must be a prefix and the next
11 characters must be id characters (more may follow — the pattern is not
anchored on the right). -/
def matchAt (lit s : List Char) : Option (List Char) :=
  if lit.isPrefixOf s then
    let r := s.drop lit.length
    let tok := r.take 11
    if tok.length = 11 && tok.all isIdChar then some tok else none
  else none

/-- `re.search` of one pattern: try `matchAt` at every position, left to
right, returning the first match (on the empty string only position 0 is
tried, where a non-empty literal cannot match). -/
def reSearch (lit : List Char) : List Char → Option (List Char)
  | [] => matchAt lit []
  | c :: rest =>
    match matchAt lit (c :: rest) with
    | some g => some g
    | none => reSearch lit rest

/-- `re.match(r'^[a-zA-Z0-9_-]{11}$', s)` (Python semantics: `$` also
matches just before one final newline): 11 id characters, optionally
followed by a single trailing newline. -/
def fullIdMatch (s : List Char) : Bool :=
  (s.length = 11 && s.all isIdChar) ||
  (s.length = 12 && (s.take 11).all isIdChar && s.getLast? == some '\n')

/-- `extract_video_id(url)`: first matching URL pattern wins; otherwise
accept the whole input if it passes the bare-id regex (the whole input is
returned, including a trailing newline the regex tolerates). -/
def extract_video_id (url : List Char) : Option (List Char) :=
  match urlPatterns.findSome? (fun p => reSearch p url) with
  | some vid => some vid
  | none => if fullIdMatch url then some url else none

/-- `is_valid_video_id(video_id)`: `bool(re.match(r'^[a-zA-Z0-9_-]{11}$', video_id))`. -/
def is_valid_video_id (s : List Char) : Bool := fullIdMatch s

/-!
## AI service (src/services/ai_service.py)
-/

/-- Modelled from the spec: one candidate of the generation service's JSON
response — the (possibly missing) `text` field of each part under
`content.parts` (a missing `content` key yields the empty parts list, as in
`candidates[0].get('content', {}).get('parts', [])`). -/
structure Candidate where
  parts : List (Option String)
deriving DecidableEq, Repr

/-- Modelled from the spec: the upstream generation-service HTTP response
that `generate_completion` inspects — the status code, the extracted error
message of a non-success body (if present), and the candidate list of a
success body. -/
structure UpstreamResponse where
  status : Nat
  error_message : Option String
  candidates : List Candidate
deriving DecidableEq, Repr

/-- The outcome of `generate_completion`: the returned text, or the raised
`AIServiceError` (message, status_code). -/
inductive AIOutcome where
  | ok (text : String)
  | error (message : String) (status_code : Nat)
deriving DecidableEq, Repr

/-- The response handling of `generate_completion` (lines 67–89), as a
function of the upstream response: non-200 statuses become upstream
errors; 200 with no candidates or with a first candidate without content
parts raises a 500 `AIServiceError`; otherwise the first part's text
(defaulting to the empty string) is returned. -/
def generate_completion (r : UpstreamResponse) : AIOutcome :=
  if r.status ≠ 200 then
    .error ("AI API error: " ++ r.error_message.getD "Unknown error") r.status
  else
    match r.candidates with
    | [] => .error "No response generated" 500
    | c :: _ =>
      match c.parts with
      | [] => .error "Empty response from AI" 500
      | p :: _ => .ok (p.getD "")

/-!
## Transcript route (src/routes/transcript.py, duplicated in src/app.py)
-/

/-- Python truthiness of the `result` value: the empty plain string and
the empty segment list are falsy. -/
def resultEmpty : TranscriptResult → Bool
  | .plain t _ _ => t.isEmpty
  | .seg l _ _ => l.isEmpty

/-- An HTTP outcome of the endpoint: a success body or an error body. -/
inductive HttpResult where
  | success (status : Nat) (res : TranscriptResult)
  | failure (status : Nat) (error : String)
deriving DecidableEq, Repr

/-- `get_transcript_endpoint` after id validation (lines 37–78 of the
route, lines 281–340 of app.py).  A service-level no-transcript exception
lands in the generic 500 handler.  On a falsy result the code executes
`raise NoTranscriptFound(video_id)`; in the youtube-transcript-api version
this code targets (instance API, `RequestBlocked`), `NoTranscriptFound`'s
constructor takes three required arguments `(video_id,
requested_language_codes, transcript_data)`, so the one-argument
construction raises `TypeError` before the raise completes.  `TypeError`
is not caught by the `except NoTranscriptFound` 404 handler but by the
generic `except Exception`, so the empty-result branch actually returns
the generic 500 body and the intended 404 path is unreachable from it.
Otherwise the result is returned with status 200. -/
def get_transcript_endpoint (tracks : List Track) (include_timestamps : Bool) : HttpResult :=
  match get_transcript tracks include_timestamps with
  | none => .failure 500 "An error occurred while fetching the transcript"
  | some r =>
    if resultEmpty r then .failure 500 "An error occurred while fetching the transcript"
    else .success 200 r

/-!
## Supporting list lemmas
-/

theorem mem_dropWhile {p : Char → Bool} {l : List Char} {a : Char}
    (h : a ∈ l.dropWhile p) : a ∈ l := by
  have := List.takeWhile_append_dropWhile p l
  rw [← this]
  exact List.mem_append_right _ h

theorem head?_dropWhile_nonsat {p : Char → Bool} {l : List Char} {c : Char}
    (h : (l.dropWhile p).head? = some c) : p c = false := by
  induction l with
  | nil => simp [List.dropWhile] at h
  | cons d rest ih =>
    by_cases hd : p d
    · simp [List.dropWhile, hd] at h
      exact ih h
    · simp [List.dropWhile, hd] at h
      subst h
      exact Bool.of_not_eq_true hd

theorem dropWhile_cons_nonsat {p : Char → Bool} {c : Char} (rest : List Char)
    (h : p c = false) : (c :: rest).dropWhile p = c :: rest := by
  simp [List.dropWhile, h]

theorem dropWhile_all_nonsat {p : Char → Bool} {l : List Char}
    (h : ∀ x ∈ l, p x = false) : l.dropWhile p = l := by
  cases l with
  | nil => rfl
  | cons c rest => exact dropWhile_cons_nonsat rest (h c (by simp))

theorem dropWhile_append_of_ne_nil {p : Char → Bool} {l : List Char} (m : List Char)
    (h : l.dropWhile p ≠ []) : (l ++ m).dropWhile p = l.dropWhile p ++ m := by
  induction l with
  | nil => simp [List.dropWhile] at h
  | cons c rest ih =>
    by_cases hc : p c
    · rw [List.dropWhile_cons_of_pos hc] at h
      rw [List.cons_append, List.dropWhile_cons_of_pos hc, List.dropWhile_cons_of_pos hc]
      exact ih h
    · rw [List.cons_append, List.dropWhile_cons_of_neg hc, List.dropWhile_cons_of_neg hc]
      rfl

theorem dropWhile_append_of_eq_nil {p : Char → Bool} {l : List Char} (m : List Char)
    (h : l.dropWhile p = []) : (l ++ m).dropWhile p = m.dropWhile p := by
  induction l with
  | nil => simp
  | cons c rest ih =>
    by_cases hc : p c
    · rw [List.dropWhile_cons_of_pos hc] at h
      rw [List.cons_append, List.dropWhile_cons_of_pos hc]
      exact ih h
    · rw [List.dropWhile_cons_of_neg hc] at h
      exact absurd h (by simp)

theorem head?_append_left {l : List Char} (m : List Char) (h : l ≠ []) :
    (l ++ m).head? = l.head? := by
  cases l with
  | nil => exact absurd rfl h
  | cons c rest => simp

theorem head?_mem {l : List Char} {a : Char} (h : l.head? = some a) : a ∈ l := by
  cases l with
  | nil => simp at h
  | cons c rest => simp at h; simp [h]

theorem getLast?_mem {l : List Char} {a : Char} (h : l.getLast? = some a) : a ∈ l := by
  rw [← List.head?_reverse] at h
  exact List.mem_reverse.mp (head?_mem h)

theorem getLast?_append_right {l : List Char} (m : List Char) (h : m ≠ []) :
    (l ++ m).getLast? = m.getLast? := by
  rw [← List.head?_reverse, ← List.head?_reverse, List.reverse_append]
  exact head?_append_left _ (by simpa using h)

theorem getLast?_cons_ne_nil {c : Char} {l : List Char} (h : l ≠ []) :
    (c :: l).getLast? = l.getLast? := by
  have : c :: l = [c] ++ l := rfl
  rw [this, getLast?_append_right _ h]

/-!
## Unfolding lemmas for the well-founded definitions
-/

theorem collapse_nil : collapse [] = [] := by simp [collapse]

theorem collapse_cons_ws {c : Char} (s : List Char) (h : isWS c = true) :
    collapse (c :: s) = ' ' :: collapse (s.dropWhile isWS) := by
  rw [collapse]
  simp [h]

theorem collapse_cons_nonws {c : Char} (s : List Char) (h : isWS c = false) :
    collapse (c :: s) = c :: collapse s := by
  rw [collapse]
  simp [h]

theorem stripBrackets_nil : stripBrackets [] = [] := by simp [stripBrackets]

theorem stripBrackets_cons_nonbr {c : Char} (s : List Char) (h : c ≠ '[') :
    stripBrackets (c :: s) = c :: stripBrackets s := by
  rw [stripBrackets]
  simp [h]

theorem stripBrackets_cons_close {s s' : List Char} (h : findClose s = some s') :
    stripBrackets ('[' :: s) = stripBrackets s' := by
  rw [stripBrackets, if_pos rfl]
  split <;> simp_all

theorem stripBrackets_cons_noclose {s : List Char} (h : findClose s = none) :
    stripBrackets ('[' :: s) = '[' :: stripBrackets s := by
  rw [stripBrackets, if_pos rfl]
  split <;> simp_all

/-!
## Trim lemmas
-/

theorem trimLeft_decomp (s : List Char) :
    ∃ z, s = z ++ trimLeft s ∧ ∀ x ∈ z, isWS x = true := by
  refine ⟨s.takeWhile isWS, ?_, ?_⟩
  · rw [trimLeft, List.takeWhile_append_dropWhile]
  · intro x hx; exact List.mem_takeWhile_imp hx

theorem trimRight_decomp (s : List Char) :
    ∃ z, s = trimRight s ++ z ∧ ∀ x ∈ z, isWS x = true := by
  refine ⟨(s.reverse.takeWhile isWS).reverse, ?_, ?_⟩
  · rw [trimRight]
    have h := List.takeWhile_append_dropWhile (p := isWS) (l := s.reverse)
    calc s = s.reverse.reverse := by rw [List.reverse_reverse]
    _ = (s.reverse.takeWhile isWS ++ s.reverse.dropWhile isWS).reverse := by rw [h]
    _ = (s.reverse.dropWhile isWS).reverse ++ (s.reverse.takeWhile isWS).reverse := by
          rw [List.reverse_append]
  · intro x hx
    exact List.mem_takeWhile_imp (List.mem_reverse.mp hx)

theorem head?_trimRight {s : List Char} (h : trimRight s ≠ []) :
    (trimRight s).head? = s.head? := by
  obtain ⟨z, hz, -⟩ := trimRight_decomp s
  conv_rhs => rw [hz]
  rw [head?_append_left _ h]

theorem head?_trimLeft_nonsat {s : List Char} {c : Char}
    (h : (trimLeft s).head? = some c) : isWS c = false :=
  head?_dropWhile_nonsat h

theorem getLast?_trimRight_nonsat {s : List Char} {c : Char}
    (h : (trimRight s).getLast? = some c) : isWS c = false := by
  rw [← List.head?_reverse, trimRight, List.reverse_reverse] at h
  exact head?_dropWhile_nonsat h

theorem head?_trim_nonsat {s : List Char} {c : Char}
    (h : (trim s).head? = some c) : isWS c = false := by
  rw [trim] at h
  have hne : trimRight (trimLeft s) ≠ [] := by
    intro hnil; rw [hnil] at h; simp at h
  rw [head?_trimRight hne] at h
  exact head?_trimLeft_nonsat h

theorem getLast?_trim_nonsat {s : List Char} {c : Char}
    (h : (trim s).getLast? = some c) : isWS c = false :=
  getLast?_trimRight_nonsat h

theorem trimLeft_eq_self {s : List Char} {c : Char}
    (hh : s.head? = some c) (hc : isWS c = false) : trimLeft s = s := by
  cases s with
  | nil => rfl
  | cons d rest =>
    simp at hh
    subst hh
    exact dropWhile_cons_nonsat rest hc

theorem trimRight_eq_self {s : List Char} {c : Char}
    (hh : s.getLast? = some c) (hc : isWS c = false) : trimRight s = s := by
  rw [← List.head?_reverse] at hh
  have hdw : s.reverse.dropWhile isWS = s.reverse := trimLeft_eq_self hh hc
  rw [trimRight, hdw, List.reverse_reverse]

theorem trimRight_append_wsall {s z : List Char} (h : ∀ x ∈ z, isWS x = true) :
    trimRight (s ++ z) = trimRight s := by
  rw [trimRight, trimRight, List.reverse_append]
  rw [dropWhile_append_of_eq_nil _ (List.dropWhile_eq_nil_iff.mpr (by simpa using h))]

theorem trim_nil : trim [] = [] := rfl

/-!
## Words lemmas
-/

theorem words_nil : words [] = [] := rfl

theorem words_cons_ws {c : Char} (s : List Char) (h : isWS c = true) :
    words (c :: s) = words s := by
  cases s <;> simp [words, h]

theorem words_single_nonws {c : Char} (h : isWS c = false) : words [c] = [[c]] := by
  simp [words, h]

theorem words_cons_cons_ws {c d : Char} (s : List Char)
    (hc : isWS c = false) (hd : isWS d = true) :
    words (c :: d :: s) = [c] :: words (d :: s) := by
  simp [words, hc, hd]

theorem words_ne_nil_of_head_nonws {c : Char} (s : List Char) (hc : isWS c = false) :
    words (c :: s) ≠ [] := by
  cases s with
  | nil => simp [words, hc]
  | cons d rest =>
    by_cases hd : isWS d
    · simp [words, hc, hd]
    · simp only [words, hc]
      simp only [Bool.not_eq_true] at hd
      simp [hd]
      split <;> simp

theorem words_cons_cons_nonws {c d : Char} {s : List Char} {w : List Char}
    {ws' : List (List Char)}
    (hc : isWS c = false) (hd : isWS d = false) (hw : words (d :: s) = w :: ws') :
    words (c :: d :: s) = (c :: w) :: ws' := by
  conv_lhs => rw [words]
  simp [hc, hd, hw]

theorem words_wsall {z : List Char} (h : ∀ x ∈ z, isWS x = true) : words z = [] := by
  induction z with
  | nil => rfl
  | cons c rest ih =>
    rw [words_cons_ws rest (h c (by simp))]
    exact ih fun x hx => h x (List.mem_cons_of_mem _ hx)

theorem words_append_wsall {s z : List Char} (h : ∀ x ∈ z, isWS x = true) :
    words (s ++ z) = words s := by
  induction s with
  | nil => simpa using words_wsall h
  | cons c rest ih =>
    by_cases hc : isWS c
    · rw [List.cons_append, words_cons_ws _ hc, words_cons_ws _ hc]
      exact ih
    · have hc' : isWS c = false := by simpa using hc
      cases rest with
      | nil =>
        cases z with
        | nil => rfl
        | cons e z' =>
          have he : isWS e = true := h e (by simp)
          have hz' : ∀ x ∈ z', isWS x = true := fun x hx => h x (List.mem_cons_of_mem _ hx)
          rw [List.singleton_append, words_cons_cons_ws _ hc' he,
            words_cons_ws _ he, words_wsall hz', words_single_nonws hc']
      | cons d rest' =>
        by_cases hd : isWS d
        · rw [List.cons_append, List.cons_append, words_cons_cons_ws _ hc' hd,
            words_cons_cons_ws _ hc' hd, ← List.cons_append, ih]
        · have hd' : isWS d = false := by simpa using hd
          have hne := words_ne_nil_of_head_nonws (rest' ++ z) hd'
          obtain ⟨w, ws', hw⟩ : ∃ w ws', words (d :: (rest' ++ z)) = w :: ws' := by
            cases hrw : words (d :: (rest' ++ z)) with
            | nil => exact absurd hrw hne
            | cons w ws' => exact ⟨w, ws', rfl⟩
          have hw' : words (d :: rest') = w :: ws' := by
            have : words (d :: rest' ++ z) = words (d :: rest') := ih
            rw [List.cons_append] at this
            rw [← this, hw]
          rw [List.cons_append, List.cons_append, words_cons_cons_nonws hc' hd' hw,
            words_cons_cons_nonws hc' hd' hw']

theorem words_dropWhile_ws (s : List Char) : words (s.dropWhile isWS) = words s := by
  induction s with
  | nil => rfl
  | cons c rest ih =>
    by_cases hc : isWS c
    · rw [List.dropWhile_cons_of_pos hc, ih, words_cons_ws _ hc]
    · rw [List.dropWhile_cons_of_neg hc]

theorem words_trimLeft (s : List Char) : words (trimLeft s) = words s :=
  words_dropWhile_ws s

theorem words_trimRight (s : List Char) : words (trimRight s) = words s := by
  obtain ⟨z, hz, hws⟩ := trimRight_decomp s
  conv_rhs => rw [hz]
  rw [words_append_wsall hws]

theorem words_trim (s : List Char) : words (trim s) = words s := by
  rw [trim, words_trimRight, words_trimLeft]

theorem words_eq_nil_iff {s : List Char} : words s = [] ↔ ∀ x ∈ s, isWS x = true := by
  constructor
  · intro h
    induction s with
    | nil => simp
    | cons c rest ih =>
      by_cases hc : isWS c
      · rw [words_cons_ws _ hc] at h
        intro x hx
        rcases List.mem_cons.mp hx with hx | hx
        · subst hx; exact hc
        · exact ih h x hx
      · exact absurd h (words_ne_nil_of_head_nonws rest (by simpa using hc))
  · exact words_wsall

theorem trim_eq_nil_iff {s : List Char} : trim s = [] ↔ words s = [] := by
  constructor
  · intro h
    rw [← words_trim s, h, words_nil]
  · intro h
    have hws := words_eq_nil_iff.mp h
    have h1 : trimLeft s = [] :=
      List.dropWhile_eq_nil_iff.mpr (by simpa using hws)
    rw [trim, h1]
    rfl

/-!
## Collapse canonical-form lemmas
-/

theorem collapse_eq_nil_iff {s : List Char} : collapse s = [] ↔ s = [] := by
  cases s with
  | nil => simp [collapse_nil]
  | cons c rest =>
    by_cases hc : isWS c
    · rw [collapse_cons_ws _ hc]; simp
    · rw [collapse_cons_nonws _ (by simpa using hc)]; simp

theorem collapse_chunk {w : List Char} (t : List Char)
    (h : ∀ x ∈ w, isWS x = false) : collapse (w ++ t) = w ++ collapse t := by
  induction w with
  | nil => simp
  | cons c w' ih =>
    rw [List.cons_append, collapse_cons_nonws _ (h c (by simp)),
      ih fun x hx => h x (List.mem_cons_of_mem _ hx)]
    rfl

theorem getLast?_exists {l : List Char} (h : l ≠ []) :
    ∃ x, l.getLast? = some x ∧ x ∈ l := by
  induction l with
  | nil => exact absurd rfl h
  | cons c rest ih =>
    by_cases hr : rest = []
    · subst hr; exact ⟨c, rfl, by simp⟩
    · obtain ⟨x, hx, hmem⟩ := ih hr
      exact ⟨x, by rw [getLast?_cons_ne_nil hr, hx], List.mem_cons_of_mem _ hmem⟩

theorem trimRight_all_nonws {l : List Char} (h : ∀ x ∈ l, isWS x = false) :
    trimRight l = l := by
  by_cases hl : l = []
  · subst hl; rfl
  · obtain ⟨x, hx, hmem⟩ := getLast?_exists hl
    exact trimRight_eq_self hx (h x hmem)

theorem trimLeft_all_nonws {l : List Char} (h : ∀ x ∈ l, isWS x = false) :
    trimLeft l = l :=
  dropWhile_all_nonsat h

theorem trim_all_nonws {l : List Char} (h : ∀ x ∈ l, isWS x = false) :
    trim l = l := by
  rw [trim, trimLeft_all_nonws h, trimRight_all_nonws h]

theorem trimRight_append {x y : List Char} (h : trimRight y ≠ []) :
    trimRight (x ++ y) = x ++ trimRight y := by
  have hy : y.reverse.dropWhile isWS ≠ [] := by
    intro hnil
    apply h
    rw [trimRight, hnil]
    rfl
  rw [trimRight, List.reverse_append, dropWhile_append_of_ne_nil _ hy,
    List.reverse_append, List.reverse_reverse]
  rfl

theorem unwords_cons_ne_nil {w : List Char} {ws' : List (List Char)} (h : ws' ≠ []) :
    unwords (w :: ws') = w ++ ' ' :: unwords ws' := by
  cases ws' with
  | nil => exact absurd rfl h
  | cons a l => rfl

theorem words_head_cons {c : Char} (s : List Char) (hc : isWS c = false) :
    ∃ w₀ ws₀, words (c :: s) = (c :: w₀) :: ws₀ := by
  cases s with
  | nil => exact ⟨[], [], words_single_nonws hc⟩
  | cons d rest =>
    by_cases hd : isWS d
    · exact ⟨[], words (d :: rest), words_cons_cons_ws _ hc hd⟩
    · have hd' : isWS d = false := by simpa using hd
      obtain ⟨w₁, ws₁, hw⟩ := words_head_cons rest hd'
      exact ⟨d :: w₁, ws₁, words_cons_cons_nonws hc hd' hw⟩

theorem unwords_words_ne_nil {c : Char} {s : List Char} (hc : isWS c = false) :
    unwords (words (c :: s)) ≠ [] := by
  obtain ⟨w₀, ws₀, hw⟩ := words_head_cons s hc
  rw [hw]
  cases ws₀ with
  | nil => simp [unwords]
  | cons a l => rw [unwords_cons_ne_nil (by simp)]; simp

theorem words_chunk : ∀ (w : List Char), (∀ x ∈ w, isWS x = false) →
    ∀ {c : Char} {r' : List Char}, isWS c = false →
    (r' = [] ∨ ∃ e r₂, r' = e :: r₂ ∧ isWS e = true) →
    words (c :: (w ++ r')) = (c :: w) :: words r' := by
  intro w
  induction w with
  | nil =>
    intro _ c r' hc hr
    rcases hr with hr | ⟨e, r₂, hr, he⟩
    · subst hr; exact words_single_nonws hc
    · subst hr; exact words_cons_cons_ws _ hc he
  | cons d w' ih =>
    intro hw c r' hc hr
    have hd : isWS d = false := hw d (by simp)
    have hw' : ∀ x ∈ w', isWS x = false := fun x hx => hw x (List.mem_cons_of_mem _ hx)
    have hrec : words (d :: (w' ++ r')) = (d :: w') :: words r' := ih hw' hd hr
    rw [List.cons_append]
    exact words_cons_cons_nonws hc hd hrec

/-- Canonical form of the plain-text whitespace pipeline: collapsing runs
of whitespace and then trimming is the same as splitting into words and
joining them with single spaces. -/
theorem trim_collapse : ∀ (s : List Char), trim (collapse s) = unwords (words s) := by
  have main : ∀ (n : Nat) (s : List Char), s.length ≤ n →
      trim (collapse s) = unwords (words s) := by
    intro n
    induction n with
    | zero =>
      intro s hs
      rw [List.length_eq_zero.mp (Nat.le_zero.mp hs)]
      rw [collapse_nil]
      rfl
    | succ n ih =>
      intro s hs
      cases s with
      | nil => rw [collapse_nil]; rfl
      | cons c rest =>
        simp only [List.length_cons, Nat.succ_le_succ_iff] at hs
        by_cases hc : isWS c
        · -- leading whitespace: it is collapsed into a single space and trimmed away
          rw [collapse_cons_ws _ hc, words_cons_ws _ hc]
          cases hr4 : rest.dropWhile isWS with
          | nil =>
            have hwnil : words rest = [] := by
              rw [← words_dropWhile_ws rest, hr4, words_nil]
            rw [collapse_nil, hwnil]
            rfl
          | cons e r₅ =>
            have he : isWS e = false := by
              have hh := head?_dropWhile_nonsat (p := isWS) (l := rest) (c := e)
              rw [hr4] at hh
              exact hh rfl
            have hlen : (e :: r₅).length ≤ n := by
              have h2 := dropWhileLenLe isWS rest
              rw [hr4] at h2
              exact Nat.le_trans h2 hs
            have hih := ih (e :: r₅) hlen
            have hwr : words rest = words (e :: r₅) := by
              rw [← words_dropWhile_ws rest, hr4]
            rw [collapse_cons_nonws _ he]
            have hstep : trim (' ' :: e :: collapse r₅) = trim (e :: collapse r₅) := by
              rw [trim, trim, trimLeft, trimLeft, List.dropWhile_cons_of_pos (by simp [isWS]),
                dropWhile_cons_nonsat _ he]
            rw [hstep, ← collapse_cons_nonws _ he, hih, hwr]
        · -- a word chunk, then the rest of the string
          have hc' : isWS c = false := by simpa using hc
          have hrest : rest = rest.takeWhile (fun x => !isWS x) ++
              rest.dropWhile (fun x => !isWS x) :=
            (List.takeWhile_append_dropWhile _ _).symm
          set w := rest.takeWhile (fun x => !isWS x) with hw_def
          set r' := rest.dropWhile (fun x => !isWS x) with hrdef
          have hwnon : ∀ x ∈ w, isWS x = false := by
            intro x hx
            have := List.mem_takeWhile_imp hx
            simpa using this
          have hrhead : r' = [] ∨ ∃ e r₂, r' = e :: r₂ ∧ isWS e = true := by
            cases hr : r' with
            | nil => exact Or.inl rfl
            | cons e r₂ =>
              refine Or.inr ⟨e, r₂, rfl, ?_⟩
              have := head?_dropWhile_nonsat (p := fun x => !isWS x) (l := rest) (c := e)
              rw [← hrdef, hr] at this
              simpa using this rfl
          have hwords : words (c :: rest) = (c :: w) :: words r' := by
            conv_lhs => rw [hrest]
            exact words_chunk w hwnon hc' hrhead
          have hcollapse : collapse (c :: rest) = c :: (w ++ collapse r') := by
            rw [collapse_cons_nonws _ hc']
            conv_lhs => rw [hrest]
            rw [collapse_chunk _ hwnon]
          rcases hrhead with hrnil | ⟨e, r₂, hrcons, he⟩
          · -- the whole string is one word
            rw [hwords, hcollapse, hrnil, collapse_nil, List.append_nil, words_nil]
            have hall : ∀ x ∈ c :: w, isWS x = false := by
              intro x hx
              rcases List.mem_cons.mp hx with hx | hx
              · subst hx; exact hc'
              · exact hwnon x hx
            rw [trim_all_nonws hall]
            rfl
          · -- a word, whitespace, then the remainder
            have hr2len : r₂.length ≤ n := by
              have h1 : r'.length ≤ rest.length := by
                rw [hrdef]; exact dropWhileLenLe _ rest
              rw [hrcons] at h1
              simp only [List.length_cons] at h1
              omega
            rw [hwords, hcollapse, hrcons, collapse_cons_ws _ he, words_cons_ws _ he]
            cases hr6 : r₂.dropWhile isWS with
            | nil =>
              have hwnil : words r₂ = [] := by
                rw [← words_dropWhile_ws r₂, hr6, words_nil]
              rw [collapse_nil, hwnil]
              have hall : ∀ x ∈ c :: w, isWS x = false := by
                intro x hx
                rcases List.mem_cons.mp hx with hx | hx
                · subst hx; exact hc'
                · exact hwnon x hx
              have h1 : c :: (w ++ ' ' :: ([] : List Char)) = (c :: w) ++ [' '] := by simp
              rw [h1, trim, trimLeft_eq_self (by simp) hc',
                trimRight_append_wsall (by simp [isWS]), trimRight_all_nonws hall]
              rfl
            | cons f r₇ =>
              have hf : isWS f = false := by
                have := head?_dropWhile_nonsat (p := isWS) (l := r₂) (c := f)
                rw [hr6] at this
                exact this rfl
              have hr6len : (f :: r₇).length ≤ n := by
                have h2 := dropWhileLenLe isWS r₂
                rw [hr6] at h2
                simp only [List.length_cons] at h2 ⊢
                omega
              have hih := ih (f :: r₇) hr6len
              have htl : trimLeft (collapse (f :: r₇)) = collapse (f :: r₇) := by
                rw [collapse_cons_nonws _ hf]
                exact dropWhile_cons_nonsat _ hf
              have htr : trimRight (collapse (f :: r₇)) = unwords (words (f :: r₇)) := by
                rw [← hih, trim, htl]
              have hne : trimRight (collapse (f :: r₇)) ≠ [] := by
                rw [htr]
                exact unwords_words_ne_nil hf
              have hwr2 : words r₂ = words (f :: r₇) := by
                rw [← words_dropWhile_ws r₂, hr6]
              have hwne : words (f :: r₇) ≠ [] := words_ne_nil_of_head_nonws r₇ hf
              have hshape : c :: (w ++ ' ' :: collapse (f :: r₇)) =
                  (c :: w ++ [' ']) ++ collapse (f :: r₇) := by simp
              rw [hshape, trim, trimLeft_eq_self (by simp) hc', trimRight_append hne, htr,
                hwr2, unwords_cons_ne_nil hwne]
              simp
  intro s
  exact main s.length s (Nat.le_refl _)

/-!
## Words across joins
-/

theorem words_append_space : ∀ (a b : List Char), words (a ++ ' ' :: b) = words a ++ words b := by
  intro a
  induction a with
  | nil =>
    intro b
    rw [List.nil_append, words_cons_ws _ (by simp [isWS]), words_nil, List.nil_append]
  | cons c a' ih =>
    intro b
    by_cases hc : isWS c
    · rw [List.cons_append, words_cons_ws _ hc, words_cons_ws _ hc, ih]
    · have hc' : isWS c = false := by simpa using hc
      cases a' with
      | nil =>
        rw [List.singleton_append, words_cons_cons_ws _ hc' (by simp [isWS]),
          words_cons_ws _ (by simp [isWS]), words_single_nonws hc', List.singleton_append]
      | cons d a'' =>
        by_cases hd : isWS d
        · rw [List.cons_append, List.cons_append, words_cons_cons_ws _ hc' hd,
            words_cons_cons_ws _ hc' hd, ← List.cons_append, ih, List.cons_append]
        · have hd' : isWS d = false := by simpa using hd
          obtain ⟨w₁, ws₁, hw0⟩ : ∃ w₁ ws₁, words (d :: a'') = w₁ :: ws₁ := by
            cases hrw : words (d :: a'') with
            | nil => exact absurd hrw (words_ne_nil_of_head_nonws a'' hd')
            | cons w₁ ws₁ => exact ⟨w₁, ws₁, rfl⟩
          have hw1 : words (d :: (a'' ++ ' ' :: b)) = w₁ :: (ws₁ ++ words b) := by
            have h1 : words ((d :: a'') ++ ' ' :: b) = words (d :: a'') ++ words b := ih b
            rw [List.cons_append] at h1
            rw [h1, hw0]
            rfl
          rw [List.cons_append, List.cons_append, words_cons_cons_nonws hc' hd' hw1,
            words_cons_cons_nonws hc' hd' hw0]
          rfl

theorem words_joinSpace : ∀ (ls : List (List Char)), words (joinSpace ls) = wordsOf ls := by
  intro ls
  induction ls with
  | nil => rfl
  | cons t ts ih =>
    cases ts with
    | nil => simp [joinSpace, wordsOf, words_nil]
    | cons t₂ ts' =>
      have hj : joinSpace (t :: t₂ :: ts') = t ++ ' ' :: joinSpace (t₂ :: ts') := rfl
      rw [hj, words_append_space, ih]
      rfl

/-!
## Membership through the pipeline
-/

theorem mem_collapse {c : Char} : ∀ {s : List Char}, c ∈ collapse s → c = ' ' ∨ c ∈ s := by
  have main : ∀ (n : Nat) (s : List Char), s.length ≤ n → c ∈ collapse s → c = ' ' ∨ c ∈ s := by
    intro n
    induction n with
    | zero =>
      intro s hs hmem
      rw [List.length_eq_zero.mp (Nat.le_zero.mp hs), collapse_nil] at hmem
      simp at hmem
    | succ n ih =>
      intro s hs hmem
      cases s with
      | nil => rw [collapse_nil] at hmem; simp at hmem
      | cons d rest =>
        simp only [List.length_cons, Nat.succ_le_succ_iff] at hs
        by_cases hd : isWS d
        · rw [collapse_cons_ws _ hd] at hmem
          rcases List.mem_cons.mp hmem with h1 | h1
          · exact Or.inl h1
          · rcases ih _ (Nat.le_trans (dropWhileLenLe isWS rest) hs) h1 with h2 | h2
            · exact Or.inl h2
            · exact Or.inr (List.mem_cons_of_mem _ (mem_dropWhile h2))
        · rw [collapse_cons_nonws _ (by simpa using hd)] at hmem
          rcases List.mem_cons.mp hmem with h1 | h1
          · subst h1; exact Or.inr (by simp)
          · rcases ih rest hs h1 with h2 | h2
            · exact Or.inl h2
            · exact Or.inr (List.mem_cons_of_mem _ h2)
  intro s
  exact main s.length s (Nat.le_refl _)

theorem mem_trimRight {c : Char} {s : List Char} (h : c ∈ trimRight s) : c ∈ s := by
  obtain ⟨z, hz, -⟩ := trimRight_decomp s
  rw [hz]
  exact List.mem_append_left _ h

theorem mem_trim {c : Char} {s : List Char} (h : c ∈ trim s) : c ∈ s :=
  mem_dropWhile (mem_trimRight h)

theorem mem_joinSpace {c : Char} : ∀ {ts : List (List Char)},
    c ∈ joinSpace ts → c = ' ' ∨ ∃ t ∈ ts, c ∈ t := by
  intro ts
  induction ts with
  | nil => intro h; simp [joinSpace] at h
  | cons t ts' ih =>
    intro h
    cases ts' with
    | nil => exact Or.inr ⟨t, by simp, h⟩
    | cons t₂ ts'' =>
      have hj : joinSpace (t :: t₂ :: ts'') = t ++ ' ' :: joinSpace (t₂ :: ts'') := rfl
      rw [hj] at h
      rcases List.mem_append.mp h with h1 | h1
      · exact Or.inr ⟨t, by simp, h1⟩
      · rcases List.mem_cons.mp h1 with h2 | h2
        · exact Or.inl h2
        · rcases ih h2 with h3 | ⟨u, hu, hcu⟩
          · exact Or.inl h3
          · exact Or.inr ⟨u, List.mem_cons_of_mem _ hu, hcu⟩

/-!
## Bracket-stripping lemmas
-/

theorem stripBrackets_no_open {s : List Char} (h : ∀ x ∈ s, x ≠ '[') :
    stripBrackets s = s := by
  induction s with
  | nil => exact stripBrackets_nil
  | cons c rest ih =>
    rw [stripBrackets_cons_nonbr _ (h c (by simp)),
      ih fun x hx => h x (List.mem_cons_of_mem _ hx)]

theorem findClose_stripBrackets_none : ∀ {s : List Char},
    findClose s = none → findClose (stripBrackets s) = none := by
  intro s
  induction s with
  | nil => intro _; rw [stripBrackets_nil]; rfl
  | cons d r ih =>
    intro h
    by_cases hd : d = ']'
    · subst hd; simp [findClose] at h
    · by_cases hn : d = '
'
      · subst hn
        rw [stripBrackets_cons_nonbr _ (by decide)]
        simp [findClose]
      · have hr : findClose r = none := by
          simpa [findClose, hd, hn] using h
        by_cases hb : d = '['
        · subst hb
          rw [stripBrackets_cons_noclose hr]
          simpa [findClose, hn] using ih hr
        · rw [stripBrackets_cons_nonbr _ hb]
          simpa [findClose, hd, hn] using ih hr

/-!
## Head and last of the collapsed string
-/

theorem collapse_head_nonws {s : List Char}
    (h : ∀ c, s.head? = some c → isWS c = false) :
    ∀ c, (collapse s).head? = some c → isWS c = false := by
  cases s with
  | nil => rw [collapse_nil]; intro c hc; simp at hc
  | cons d rest =>
    have hd : isWS d = false := h d rfl
    rw [collapse_cons_nonws _ hd]
    intro c hc
    simp at hc
    subst hc
    exact hd

theorem collapse_last_nonws : ∀ {s : List Char},
    (∀ c, s.getLast? = some c → isWS c = false) →
    ∀ c, (collapse s).getLast? = some c → isWS c = false := by
  have main : ∀ (n : Nat) (s : List Char), s.length ≤ n →
      (∀ c, s.getLast? = some c → isWS c = false) →
      ∀ c, (collapse s).getLast? = some c → isWS c = false := by
    intro n
    induction n with
    | zero =>
      intro s hs _ c hc
      rw [List.length_eq_zero.mp (Nat.le_zero.mp hs), collapse_nil] at hc
      simp at hc
    | succ n ih =>
      intro s hs hlast c hc
      cases s with
      | nil => rw [collapse_nil] at hc; simp at hc
      | cons d rest =>
        simp only [List.length_cons, Nat.succ_le_succ_iff] at hs
        by_cases hd : isWS d
        · rw [collapse_cons_ws _ hd] at hc
          cases hr4 : rest.dropWhile isWS with
          | nil =>
            -- the whole string is whitespace, contradicting the last-character hypothesis
            exfalso
            have hall : ∀ x ∈ rest, isWS x = true := List.dropWhile_eq_nil_iff.mp hr4
            obtain ⟨x, hx, hxm⟩ := getLast?_exists (l := d :: rest) (by simp)
            have hxf := hlast x hx
            rcases List.mem_cons.mp hxm with h1 | h1
            · subst h1; rw [hd] at hxf; exact absurd hxf (by simp)
            · rw [hall x h1] at hxf; exact absurd hxf (by simp)
          | cons e r₅ =>
            have hcne : collapse (e :: r₅) ≠ [] := by
              intro hnil
              exact absurd (collapse_eq_nil_iff.mp hnil) (by simp)
            rw [hr4, getLast?_cons_ne_nil hcne] at hc
            have hrestne : rest ≠ [] := by
              intro hnil
              rw [hnil] at hr4
              simp at hr4
            have hlast₂ : ∀ c', (e :: r₅).getLast? = some c' → isWS c' = false := by
              intro c' hc'
              apply hlast
              obtain ⟨pre, hpre, -⟩ := trimLeft_decomp rest
              rw [trimLeft] at hpre
              rw [getLast?_cons_ne_nil hrestne, hpre,
                getLast?_append_right _ (by rw [hr4]; simp), hr4]
              exact hc'
            have hlen : (e :: r₅).length ≤ n := by
              have h2 := dropWhileLenLe isWS rest
              rw [hr4] at h2
              exact Nat.le_trans h2 hs
            exact ih _ hlen hlast₂ c hc
        · have hd' : isWS d = false := by simpa using hd
          rw [collapse_cons_nonws _ hd'] at hc
          cases hrest : rest with
          | nil =>
            rw [hrest, collapse_nil] at hc
            simp at hc
            subst hc
            exact hd'
          | cons e r₅ =>
            have hcne : collapse rest ≠ [] := by
              intro hnil
              rw [collapse_eq_nil_iff.mp hnil] at hrest
              simp at hrest
            rw [getLast?_cons_ne_nil hcne] at hc
            have hrestne : rest ≠ [] := by rw [hrest]; simp
            have hlast₂ : ∀ c', rest.getLast? = some c' → isWS c' = false := by
              intro c' hc'
              apply hlast
              rw [getLast?_cons_ne_nil hrestne]
              exact hc'
            exact ih rest hs hlast₂ c hc
  intro s
  exact main s.length s (Nat.le_refl _)

/-- If a string starts and ends with non-whitespace, collapsing it leaves it
already trimmed. -/
theorem trim_collapse_eq {j : List Char}
    (hh : ∀ c, j.head? = some c → isWS c = false)
    (hl : ∀ c, j.getLast? = some c → isWS c = false) :
    trim (collapse j) = collapse j := by
  cases hj : j with
  | nil => rw [collapse_nil]; rfl
  | cons d rest =>
    rw [← hj]
    have hcne : collapse j ≠ [] := by
      intro hnil
      rw [collapse_eq_nil_iff.mp hnil] at hj
      simp at hj
    obtain ⟨c₀, hc₀⟩ : ∃ c₀, (collapse j).head? = some c₀ := by
      cases hcj : collapse j with
      | nil => exact absurd hcj hcne
      | cons a l => exact ⟨a, rfl⟩
    obtain ⟨c₁, hc₁, -⟩ := getLast?_exists hcne
    rw [trim, trimLeft_eq_self hc₀ (collapse_head_nonws hh c₀ hc₀),
      trimRight_eq_self hc₁ (collapse_last_nonws hl c₁ hc₁)]

/-!
## Idempotence of bracket stripping
-/

theorem stripBrackets_idem : ∀ (s : List Char),
    stripBrackets (stripBrackets s) = stripBrackets s := by
  have main : ∀ (n : Nat) (s : List Char), s.length ≤ n →
      stripBrackets (stripBrackets s) = stripBrackets s := by
    intro n
    induction n with
    | zero =>
      intro s hs
      rw [List.length_eq_zero.mp (Nat.le_zero.mp hs), stripBrackets_nil, stripBrackets_nil]
    | succ n ih =>
      intro s hs
      cases s with
      | nil => rw [stripBrackets_nil, stripBrackets_nil]
      | cons c rest =>
        simp only [List.length_cons, Nat.succ_le_succ_iff] at hs
        by_cases hb : c = '['
        · subst hb
          cases hfc : findClose rest with
          | some rest' =>
            rw [stripBrackets_cons_close hfc]
            exact ih rest' (Nat.le_trans (Nat.le_of_lt (findClose_length hfc)) hs)
          | none =>
            rw [stripBrackets_cons_noclose hfc,
              stripBrackets_cons_noclose (findClose_stripBrackets_none hfc), ih rest hs]
        · rw [stripBrackets_cons_nonbr _ hb, stripBrackets_cons_nonbr _ hb, ih rest hs]
  intro s
  exact main s.length s (Nat.le_refl _)

/-!
## The two output shapes on bracket-free entries
-/

theorem wordsOf_cons (t : List Char) (ts : List (List Char)) :
    wordsOf (t :: ts) = words t ++ wordsOf ts := rfl

/-- With no opening bracket anywhere in the entries, the plain-text
pipeline reduces to the whitespace canonical form of the joined texts. -/
theorem plainText_no_bracket {entries : List Entry}
    (h : ∀ e ∈ entries, ∀ x ∈ e.text, x ≠ '[') :
    plainText entries = unwords (wordsOf (entries.map Entry.text)) := by
  rw [plainText]
  have hnb : ∀ x ∈ trim (collapse (joinSpace (entries.map Entry.text))), x ≠ '[' := by
    intro x hx
    rcases mem_collapse (mem_trim hx) with h2 | h2
    · subst h2; decide
    · rcases mem_joinSpace h2 with h3 | ⟨t, ht, hxt⟩
      · subst h3; decide
      · obtain ⟨e, he, rfl⟩ := List.mem_map.mp ht
        exact h e he x hxt
  rw [stripBrackets_no_open hnb, trim_collapse, words_joinSpace]

theorem wordsOf_segments {entries : List Entry}
    (h : ∀ e ∈ entries, ∀ x ∈ e.text, x ≠ '[') :
    wordsOf ((segmentsOf entries).map Segment.text) = wordsOf (entries.map Entry.text) := by
  induction entries with
  | nil => rfl
  | cons e es ih =>
    have he : stripBrackets e.text = e.text := stripBrackets_no_open (h e (by simp))
    have hes : ∀ e' ∈ es, ∀ x ∈ e'.text, x ≠ '[' :=
      fun e' he' => h e' (List.mem_cons_of_mem _ he')
    by_cases ht : trim (stripBrackets e.text) = []
    · have hw : words e.text = [] := by
        rw [← he, ← words_trim (stripBrackets e.text), ht, words_nil]
      have hseg : segmentsOf (e :: es) = segmentsOf es := by
        simp [segmentsOf, List.filterMap_cons, ht]
      rw [hseg, List.map_cons, wordsOf_cons, hw, List.nil_append]
      exact ih hes
    · have hseg : segmentsOf (e :: es) =
          ⟨trim (stripBrackets e.text), e.start, e.duration⟩ :: segmentsOf es := by
        simp [segmentsOf, List.filterMap_cons, ht]
      rw [hseg, List.map_cons, List.map_cons, wordsOf_cons, wordsOf_cons]
      have hwt : words (trim (stripBrackets e.text)) = words e.text := by
        rw [words_trim, he]
      rw [hwt, ih hes]

theorem joinSpace_ne_nil {t : List Char} (ts : List (List Char)) (h : t ≠ []) :
    joinSpace (t :: ts) ≠ [] := by
  cases ts with
  | nil => exact h
  | cons t₂ ts' =>
    have hj : joinSpace (t :: t₂ :: ts') = t ++ ' ' :: joinSpace (t₂ :: ts') := rfl
    rw [hj]
    simp

theorem joinSpace_head?_nonws {ts : List (List Char)}
    (h : ∀ t ∈ ts, t ≠ [] ∧ ∀ c, t.head? = some c → isWS c = false) :
    ∀ c, (joinSpace ts).head? = some c → isWS c = false := by
  cases ts with
  | nil => intro c hc; simp [joinSpace] at hc
  | cons t ts' =>
    cases ts' with
    | nil => exact (h t (by simp)).2
    | cons t₂ ts'' =>
      have hj : joinSpace (t :: t₂ :: ts'') = t ++ ' ' :: joinSpace (t₂ :: ts'') := rfl
      intro c hc
      rw [hj, head?_append_left _ (h t (by simp)).1] at hc
      exact (h t (by simp)).2 c hc

theorem joinSpace_getLast?_nonws : ∀ (ts : List (List Char)),
    (∀ t ∈ ts, t ≠ [] ∧ ∀ c, t.getLast? = some c → isWS c = false) →
    ∀ c, (joinSpace ts).getLast? = some c → isWS c = false := by
  intro ts
  induction ts with
  | nil => intro _ c hc; simp [joinSpace] at hc
  | cons t ts' ih =>
    intro h c hc
    cases ts' with
    | nil => exact (h t (by simp)).2 c hc
    | cons t₂ ts'' =>
      have hj : joinSpace (t :: t₂ :: ts'') = t ++ ' ' :: joinSpace (t₂ :: ts'') := rfl
      have hjne : joinSpace (t₂ :: ts'') ≠ [] :=
        joinSpace_ne_nil ts'' (h t₂ (by simp)).1
      rw [hj, getLast?_append_right _ (by simp), getLast?_cons_ne_nil hjne] at hc
      exact ih (fun u hu => h u (List.mem_cons_of_mem _ hu)) c hc

/-- With no opening bracket anywhere in the entries, joining the segment
texts with single spaces and collapsing whitespace also reduces to the
same whitespace canonical form. -/
theorem segJoin_no_bracket {entries : List Entry}
    (h : ∀ e ∈ entries, ∀ x ∈ e.text, x ≠ '[') :
    collapse (joinSpace ((segmentsOf entries).map Segment.text)) =
      unwords (wordsOf (entries.map Entry.text)) := by
  have hmem : ∀ t ∈ (segmentsOf entries).map Segment.text,
      ∃ u, t = trim u ∧ t ≠ [] := by
    intro t ht
    obtain ⟨sg, hsg, rfl⟩ := List.mem_map.mp ht
    obtain ⟨e, he, hfe⟩ := List.mem_filterMap.mp hsg
    by_cases hte : trim (stripBrackets e.text) = []
    · simp only [hte] at hfe
      simp [hte] at hfe
    · simp only at hfe
      rw [if_neg hte] at hfe
      cases hfe
      exact ⟨stripBrackets e.text, rfl, hte⟩
  have hcond : ∀ t ∈ (segmentsOf entries).map Segment.text,
      t ≠ [] ∧ (∀ c, t.head? = some c → isWS c = false) ∧
        ∀ c, t.getLast? = some c → isWS c = false := by
    intro t ht
    obtain ⟨u, rfl, hne⟩ := hmem t ht
    exact ⟨hne, fun c hc => head?_trim_nonsat hc, fun c hc => getLast?_trim_nonsat hc⟩
  have htrim := trim_collapse_eq
    (joinSpace_head?_nonws fun t ht => ⟨(hcond t ht).1, (hcond t ht).2.1⟩)
    (joinSpace_getLast?_nonws _ fun t ht => ⟨(hcond t ht).1, (hcond t ht).2.2⟩)
  rw [← htrim, trim_collapse, words_joinSpace, wordsOf_segments h]

/-!
## Lookup lemmas for the English tiers
-/

theorem findSome?_cons_eq {α β : Type} (f : α → Option β) (a : α) (l : List α) :
    (a :: l).findSome? f =
      match f a with
      | some b => some b
      | none => l.findSome? f := rfl

theorem findTranscript_some {g : Bool} {langs : List (List Char)} {tracks : List Track}
    {t : Track} (h : findTranscript g langs tracks = some t) :
    t ∈ tracks ∧ t.is_generated = g ∧ t.language_code ∈ langs := by
  rw [findTranscript] at h
  obtain ⟨l, hl, hfind⟩ := List.exists_of_findSome?_eq_some h
  have hp := List.find?_some hfind
  simp only [Bool.and_eq_true, beq_iff_eq] at hp
  exact ⟨List.mem_of_find?_eq_some hfind, hp.1, hp.2 ▸ hl⟩

theorem findTranscript_mem {g : Bool} {tracks : List Track} {t : Track}
    (hmem : t ∈ tracks) (hg : t.is_generated = g) :
    ∀ {langs : List (List Char)}, t.language_code ∈ langs →
      ∃ u, findTranscript g langs tracks = some u := by
  intro langs
  induction langs with
  | nil => intro h; simp at h
  | cons l ls ih =>
    intro h
    rw [findTranscript, findSome?_cons_eq]
    cases hf : tracks.find? (fun tr => tr.is_generated == g && tr.language_code == l) with
    | some u => exact ⟨u, rfl⟩
    | none =>
      rcases List.mem_cons.mp h with hcode | hcode
      · exfalso
        have hnone := List.find?_eq_none.mp hf t hmem
        simp only [Bool.and_eq_true, beq_iff_eq, not_and] at hnone
        exact hnone hg hcode
      · obtain ⟨u, hu⟩ := ih hcode
        rw [findTranscript] at hu
        exact ⟨u, hu⟩

theorem chooseTrack_cons_fallback (t : Track) (rest : List Track)
    (h1 : findTranscript false englishCodes (t :: rest) = none)
    (h2 : findTranscript true englishCodes (t :: rest) = none) :
    chooseTrack (t :: rest) =
      if !startsWithEn t.language_code && t.is_translatable then
        (if t.translate_ok then some ⟨t.translated_entries, "en".toList, t.is_generated, true⟩
         else some ⟨t.entries, t.language_code, t.is_generated, false⟩)
      else some ⟨t.entries, t.language_code, t.is_generated, false⟩ := by
  simp only [chooseTrack, h1, h2]

theorem segments_sublist : ∀ entries : List Entry,
    ((segmentsOf entries).map fun sg => (sg.start, sg.duration)).Sublist
      (entries.map fun e => (e.start, e.duration)) := by
  intro entries
  induction entries with
  | nil => simp [segmentsOf]
  | cons e es ih =>
    by_cases ht : trim (stripBrackets e.text) = []
    · have hseg : segmentsOf (e :: es) = segmentsOf es := by
        simp [segmentsOf, List.filterMap_cons, ht]
      rw [hseg, List.map_cons]
      exact ih.cons _
    · have hseg : segmentsOf (e :: es) =
          ⟨trim (stripBrackets e.text), e.start, e.duration⟩ :: segmentsOf es := by
        simp [segmentsOf, List.filterMap_cons, ht]
      rw [hseg, List.map_cons, List.map_cons]
      exact ih.cons₂ _

theorem reSearch_of_matchAt {lit s : List Char} {g : List Char}
    (h : matchAt lit s = some g) : reSearch lit s = some g := by
  cases s with
  | nil =>
    have hr : reSearch lit [] = matchAt lit [] := rfl
    rw [hr, h]
  | cons c rest =>
    have hr : reSearch lit (c :: rest) =
        match matchAt lit (c :: rest) with
        | some g => some g
        | none => reSearch lit rest := rfl
    rw [hr, h]

theorem isPrefixOf_append (l m : List Char) : l.isPrefixOf (l ++ m) = true := by
  induction l with
  | nil => cases m <;> rfl
  | cons c l' ih => simp [List.isPrefixOf, ih]

/-!
## Claims
-/

/-- C1: whenever the caption listing contains a manually created track
whose language code is one of en, en-US, en-GB, the resolver's choice is a
manual track with an English code — `is_generated` is `false`, the chosen
language is in the English set, no translation is applied, and the entries
come from a manual English track of the listing — for every listing, in
particular regardless of where the manual track sits in the enumeration
and of whatever other tracks are present. -/
theorem c1_manual_english_wins (tracks : List Track) (t : Track)
    (hmem : t ∈ tracks) (hman : t.is_generated = false)
    (heng : t.language_code ∈ englishCodes) :
    ∃ c, chooseTrack tracks = some c ∧ c.is_generated = false ∧
      c.language ∈ englishCodes ∧ c.translated = false ∧
      ∃ t', t' ∈ tracks ∧ t'.is_generated = false ∧
        t'.language_code = c.language ∧ c.entries = t'.entries := by
  obtain ⟨u, hu⟩ := findTranscript_mem hmem hman heng
  obtain ⟨humem, hug, hul⟩ := findTranscript_some hu
  refine ⟨⟨u.entries, u.language_code, false, false⟩, ?_, rfl, hul, rfl,
    u, humem, hug, rfl, rfl⟩
  simp only [chooseTrack, hu]

/-- C1 witness: a generated `en` track enumerated first does not shadow a
manual `en-GB` track enumerated after it. -/
theorem c1_witness :
    ∃ c : Chosen, chooseTrack
        [⟨"en".toList, true, true, [⟨"auto".toList, 0, 1⟩], false, []⟩,
         ⟨"en-GB".toList, false, false, [⟨"manual".toList, 2, 3⟩], false, []⟩] = some c ∧
      c.is_generated = false ∧ c.language ∈ englishCodes ∧ c.translated = false ∧
      ∃ t' : Track, t' ∈
          ([⟨"en".toList, true, true, [⟨"auto".toList, 0, 1⟩], false, []⟩,
            ⟨"en-GB".toList, false, false, [⟨"manual".toList, 2, 3⟩], false, []⟩] : List Track) ∧
        t'.is_generated = false ∧ t'.language_code = c.language ∧ c.entries = t'.entries :=
  c1_manual_english_wins _
    ⟨"en-GB".toList, false, false, [⟨"manual".toList, 2, 3⟩], false, []⟩
    (by simp) rfl (by simp [englishCodes])

/-- C2 counterexample: for the entries "a [mu" and "sic] b" — a bracketed
annotation split across two consecutive entries — joining the segment
texts with single spaces and collapsing whitespace gives "a [mu sic] b",
while the plain-text output is "a  b": the two projections disagree on
content, not only on shape. -/
theorem c2_counterexample :
    collapse (joinSpace ((segmentsOf
        [⟨"a [mu".toList, 0, 1⟩, ⟨"sic] b".toList, 2, 3⟩]).map Segment.text)) ≠
      plainText [⟨"a [mu".toList, 0, 1⟩, ⟨"sic] b".toList, 2, 3⟩] := by
  have h1 : collapse (joinSpace ((segmentsOf
      [⟨"a [mu".toList, 0, 1⟩, ⟨"sic] b".toList, 2, 3⟩]).map Segment.text)) =
      "a [mu sic] b".toList := by
    simp [segmentsOf, List.filterMap_cons, joinSpace, collapse, stripBrackets, findClose,
      trim, trimLeft, trimRight, isWS, List.dropWhile]
  have h2 : plainText [⟨"a [mu".toList, 0, 1⟩, ⟨"sic] b".toList, 2, 3⟩] =
      "a  b".toList := by
    simp [plainText, joinSpace, collapse, stripBrackets, findClose, trim, trimLeft,
      trimRight, isWS, List.dropWhile]
  rw [h1, h2]
  decide

/-- C2 (amended): for entry lists in which no entry text contains an
opening bracket, joining the segment texts with single spaces and
collapsing runs of whitespace yields exactly the plain-text output
(empty-after-cleaning entries are dropped on the segment side, matching
the whitespace collapse on the plain side).  With annotations present the
two projections can disagree, because plain text strips brackets only
after joining while segments strip per entry. -/
theorem c2_amended (entries : List Entry)
    (h : ∀ e ∈ entries, ∀ x ∈ e.text, x ≠ '[') :
    collapse (joinSpace ((segmentsOf entries).map Segment.text)) = plainText entries := by
  rw [segJoin_no_bracket h, plainText_no_bracket h]

/-- C2 witness: the amended agreement at a concrete entry list with runs
of whitespace and a whitespace-only entry that is dropped. -/
theorem c2_witness :
    collapse (joinSpace ((segmentsOf
        [⟨"hello  world".toList, 0, 1⟩, ⟨"  ".toList, 2, 3⟩, ⟨" foo".toList, 4, 5⟩]).map
          Segment.text)) =
      plainText [⟨"hello  world".toList, 0, 1⟩, ⟨"  ".toList, 2, 3⟩, ⟨" foo".toList, 4, 5⟩] :=
  c2_amended _ (by decide)

/-- C3: when timestamps are not requested, the returned transcript string
is exactly the entries' original texts joined with single spaces, then
whitespace-collapsed, then trimmed, and only then bracket-stripped — with
nothing applied after the bracket stripping. -/
theorem c3_plain_pipeline (tracks : List Track) (c : Chosen)
    (h : chooseTrack tracks = some c) :
    get_transcript tracks false =
      some (.plain
        (stripBrackets (trim (collapse (joinSpace (c.entries.map Entry.text)))))
        c.language c.is_generated) := by
  simp only [get_transcript, h]
  rfl

/-- C3 witness: a track whose transcript keeps the doubled space left by
stripping an annotation after joining — no collapsing happens afterwards. -/
theorem c3_witness :
    get_transcript [⟨"en".toList, false, false,
        [⟨"hello [Music]".toList, 0, 1⟩, ⟨"world".toList, 2, 3⟩], false, []⟩] false =
      some (.plain
        (stripBrackets (trim (collapse (joinSpace
          ([⟨"hello [Music]".toList, 0, 1⟩, ⟨"world".toList, 2, 3⟩].map Entry.text)))))
        "en".toList false) :=
  c3_plain_pipeline _ ⟨[⟨"hello [Music]".toList, 0, 1⟩, ⟨"world".toList, 2, 3⟩],
    "en".toList, false, false⟩ (by decide)

/-- C4: when both English tiers come up empty, the resolver takes the
first enumerated track; if that track is not English and is translatable
but the translation call fails, resolution still succeeds, returning the
original entries with the original language code — for every tail of the
enumeration, which never gets inspected. -/
theorem c4_translation_failure (t : Track) (rest : List Track) (ts : Bool)
    (h1 : findTranscript false englishCodes (t :: rest) = none)
    (h2 : findTranscript true englishCodes (t :: rest) = none)
    (h3 : startsWithEn t.language_code = false)
    (h4 : t.is_translatable = true)
    (h5 : t.translate_ok = false) :
    chooseTrack (t :: rest) = some ⟨t.entries, t.language_code, t.is_generated, false⟩ ∧
    get_transcript (t :: rest) ts =
      some (if ts then .seg (segmentsOf t.entries) t.language_code t.is_generated
        else .plain (plainText t.entries) t.language_code t.is_generated) := by
  have hch : chooseTrack (t :: rest) =
      some ⟨t.entries, t.language_code, t.is_generated, false⟩ := by
    rw [chooseTrack_cons_fallback t rest h1 h2]
    simp [h3, h4, h5]
  refine ⟨hch, ?_⟩
  simp only [get_transcript, hch]
  cases ts <;> rfl

/-- C4 witness: the fr/generated/translatable scenario with a failing
translation call and one further (never inspected) track. -/
theorem c4_witness :
    chooseTrack [⟨"fr".toList, true, true, [⟨"bonjour".toList, 0, 1⟩], false, []⟩,
        ⟨"de".toList, true, true, [⟨"hallo".toList, 2, 3⟩], true, []⟩] =
      some ⟨[⟨"bonjour".toList, 0, 1⟩], "fr".toList, true, false⟩ ∧
    get_transcript [⟨"fr".toList, true, true, [⟨"bonjour".toList, 0, 1⟩], false, []⟩,
        ⟨"de".toList, true, true, [⟨"hallo".toList, 2, 3⟩], true, []⟩] false =
      some (if false then
          .seg (segmentsOf [⟨"bonjour".toList, 0, 1⟩]) "fr".toList true
        else .plain (plainText [⟨"bonjour".toList, 0, 1⟩]) "fr".toList true) :=
  c4_translation_failure
    ⟨"fr".toList, true, true, [⟨"bonjour".toList, 0, 1⟩], false, []⟩
    [⟨"de".toList, true, true, [⟨"hallo".toList, 2, 3⟩], true, []⟩] false
    (by decide) (by decide) (by decide) rfl rfl

/-- C5: every successful resolution picks a listed track whose
`is_generated` value the result carries unchanged; the result's language
is "en" exactly when the tier-3 translation was applied (in which case the
entries are the translated ones), and otherwise is the chosen track's own
code with the track's own entries — in particular a generated French
translatable track whose translation succeeds yields language "en" with
`is_generated` still true.  The English tiers always report the found
track's own (English) code. -/
theorem c5_language_provenance (tracks : List Track) (c : Chosen)
    (h : chooseTrack tracks = some c) :
    ∃ t, t ∈ tracks ∧ c.is_generated = t.is_generated ∧
      ((c.translated = true ∧ c.language = "en".toList ∧ c.entries = t.translated_entries) ∨
       (c.translated = false ∧ c.language = t.language_code ∧ c.entries = t.entries)) := by
  cases hf1 : findTranscript false englishCodes tracks with
  | some t =>
    obtain ⟨hmem, hgen, -⟩ := findTranscript_some hf1
    have hch : chooseTrack tracks = some ⟨t.entries, t.language_code, false, false⟩ := by
      simp only [chooseTrack, hf1]
    rw [h] at hch
    simp only [Option.some.injEq] at hch
    subst hch
    exact ⟨t, hmem, hgen.symm, Or.inr ⟨rfl, rfl, rfl⟩⟩
  | none =>
    cases hf2 : findTranscript true englishCodes tracks with
    | some t =>
      obtain ⟨hmem, hgen, -⟩ := findTranscript_some hf2
      have hch : chooseTrack tracks = some ⟨t.entries, t.language_code, true, false⟩ := by
        simp only [chooseTrack, hf1, hf2]
      rw [h] at hch
      simp only [Option.some.injEq] at hch
      subst hch
      exact ⟨t, hmem, hgen.symm, Or.inr ⟨rfl, rfl, rfl⟩⟩
    | none =>
      cases tracks with
      | nil =>
        have hch : chooseTrack ([] : List Track) = none := by
          simp only [chooseTrack, hf1, hf2]
        rw [h] at hch
        simp at hch
      | cons t rest =>
        have hch := chooseTrack_cons_fallback t rest hf1 hf2
        rw [h] at hch
        refine ⟨t, by simp, ?_⟩
        by_cases hcond : (!startsWithEn t.language_code && t.is_translatable) = true
        · by_cases htr : t.translate_ok = true
          · rw [if_pos hcond, if_pos htr] at hch
            simp only [Option.some.injEq] at hch
            rw [hch]
            exact ⟨rfl, Or.inl ⟨rfl, rfl, rfl⟩⟩
          · rw [if_pos hcond, if_neg htr] at hch
            simp only [Option.some.injEq] at hch
            rw [hch]
            exact ⟨rfl, Or.inr ⟨rfl, rfl, rfl⟩⟩
        · rw [if_neg hcond] at hch
          simp only [Option.some.injEq] at hch
          rw [hch]
          exact ⟨rfl, Or.inr ⟨rfl, rfl, rfl⟩⟩

/-- C5 witness: the fr/generated/translatable scenario with a successful
translation: the result has language "en" and keeps `is_generated = true`. -/
theorem c5_witness :
    ∃ t : Track, t ∈
        ([⟨"fr".toList, true, true, [⟨"bonjour".toList, 0, 1⟩], true,
          [⟨"hello".toList, 0, 1⟩]⟩] : List Track) ∧
      (true : Bool) = t.is_generated ∧
      (((true : Bool) = true ∧ "en".toList = "en".toList ∧
        [⟨"hello".toList, 0, 1⟩] = t.translated_entries) ∨
       ((true : Bool) = false ∧ "en".toList = t.language_code ∧
        ([⟨"hello".toList, 0, 1⟩] : List Entry) = t.entries)) :=
  c5_language_provenance
    [⟨"fr".toList, true, true, [⟨"bonjour".toList, 0, 1⟩], true, [⟨"hello".toList, 0, 1⟩]⟩]
    ⟨[⟨"hello".toList, 0, 1⟩], "en".toList, true, true⟩ (by decide)

/-- C6 counterexample: the URL patterns are not anchored after the
11-character group — on a recognised prefix followed by 12 identifier
characters, extraction succeeds with the first 11 of them (a prefix
check); and the bare-id regex of `is_valid_video_id` accepts 11 identifier
characters followed by a trailing newline, since Python `$` also matches
just before a final newline. -/
theorem c6_counterexample :
    extract_video_id "youtube.com/watch?v=abcdefghijkl".toList =
      some "abcdefghijk".toList ∧
    is_valid_video_id "abcdefghijk\n".toList = true := by
  exact ⟨by decide, by decide⟩

/-- C6 (amended): on a recognised URL prefix followed by 12 identifier
characters, `extract_video_id` succeeds and returns the first 11 of them;
and `is_valid_video_id s` is true exactly when `s` is 11 characters of the
identifier alphabet, or 11 such characters followed by one trailing
newline. -/
theorem c6_amended :
    (∀ tok : List Char, tok.length = 12 → tok.all isIdChar = true →
      extract_video_id ("youtube.com/watch?v=".toList ++ tok) = some (tok.take 11)) ∧
    (∀ s : List Char, is_valid_video_id s = true ↔
      ((s.length = 11 ∧ ∀ x ∈ s, isIdChar x = true) ∨
       (∃ t, s = t ++ ['\n'] ∧ t.length = 11 ∧ ∀ x ∈ t, isIdChar x = true))) := by
  constructor
  · intro tok hlen hall
    have hmatch : matchAt "youtube.com/watch?v=".toList
        ("youtube.com/watch?v=".toList ++ tok) = some (tok.take 11) := by
      rw [matchAt]
      rw [List.drop_left]
      have htk : (tok.take 11).length = 11 := by
        simp [List.length_take, hlen]
      have hta : (tok.take 11).all isIdChar = true := by
        rw [List.all_eq_true] at hall ⊢
        exact fun x hx => hall x (List.mem_of_mem_take hx)
      simp [isPrefixOf_append, htk, hta]
    have hsearch : reSearch "youtube.com/watch?v=".toList
        ("youtube.com/watch?v=".toList ++ tok) = some (tok.take 11) :=
      reSearch_of_matchAt hmatch
    rw [extract_video_id, urlPatterns, findSome?_cons_eq, hsearch]
  · intro s
    rw [is_valid_video_id, fullIdMatch]
    constructor
    · intro h
      rcases Bool.or_eq_true_iff.mp h with h | h
      · simp only [Bool.and_eq_true, decide_eq_true_eq, List.all_eq_true] at h
        exact Or.inl ⟨h.1, h.2⟩
      · simp only [Bool.and_eq_true, decide_eq_true_eq, List.all_eq_true, beq_iff_eq] at h
        obtain ⟨⟨hlen, htake⟩, hlast⟩ := h
        refine Or.inr ⟨s.take 11, ?_, ?_, htake⟩
        · obtain ⟨x, hx⟩ := List.length_eq_one.mp
            (show (s.drop 11).length = 1 by rw [List.length_drop, hlen])
          have hsplit : s = s.take 11 ++ s.drop 11 := (List.take_append_drop 11 s).symm
          rw [hx] at hsplit
          have : s.getLast? = some x := by
            rw [hsplit, List.getLast?_concat]
          rw [this] at hlast
          simp only [Option.some.injEq] at hlast
          conv_lhs => rw [hsplit]
          rw [hlast]
        · simp [List.length_take, hlen]
    · intro h
      rcases h with ⟨hlen, hall⟩ | ⟨t, rfl, hlen, hall⟩
      · apply Bool.or_eq_true_iff.mpr
        exact Or.inl (by simp [hlen, List.all_eq_true.mpr hall])
      · apply Bool.or_eq_true_iff.mpr
        refine Or.inr ?_
        have h12 : (t ++ ['\n']).length = 12 := by simp [hlen]
        have htake : (t ++ ['\n']).take 11 = t := by
          have : (t ++ ['\n']).take t.length = t := List.take_left t _
          rw [hlen] at this
          exact this
        simp [h12, htake, List.all_eq_true.mpr hall, List.getLast?_concat]

/-- C6 witness: the amended extraction at a 12-character token, and the
bare 11-character acceptance. -/
theorem c6_witness :
    extract_video_id ("youtube.com/watch?v=".toList ++ "abcdefghijkl".toList) =
      some ("abcdefghijkl".toList.take 11) ∧
    is_valid_video_id "abcdefghijk".toList = true :=
  ⟨c6_amended.1 "abcdefghijkl".toList (by decide) (by decide),
   (c6_amended.2 "abcdefghijk".toList).mpr (Or.inl (by decide))⟩

/-- C7: with timestamps requested, the output is exactly the fetched
entries mapped by per-entry bracket stripping and trimming with
empty-after-cleaning entries dropped; every emitted segment carries some
fetched entry's `start` and `duration` unmodified, and the timing pairs
appear as a sublist of the fetched timing pairs — entries are never
reordered. -/
theorem c7_segment_shape (tracks : List Track) (c : Chosen)
    (h : chooseTrack tracks = some c) :
    get_transcript tracks true = some (.seg (segmentsOf c.entries) c.language c.is_generated) ∧
    segmentsOf c.entries = c.entries.filterMap (fun e =>
      let t := trim (stripBrackets e.text)
      if t = [] then none else some ⟨t, e.start, e.duration⟩) ∧
    (∀ sg ∈ segmentsOf c.entries, ∃ e ∈ c.entries,
      sg.text = trim (stripBrackets e.text) ∧ sg.text ≠ [] ∧
      sg.start = e.start ∧ sg.duration = e.duration) ∧
    ((segmentsOf c.entries).map fun sg => (sg.start, sg.duration)).Sublist
      (c.entries.map fun e => (e.start, e.duration)) := by
  refine ⟨?_, rfl, ?_, segments_sublist c.entries⟩
  · simp only [get_transcript, h]
    rfl
  · intro sg hsg
    obtain ⟨e, he, hfe⟩ := List.mem_filterMap.mp hsg
    by_cases ht : trim (stripBrackets e.text) = []
    · simp only [ht] at hfe
      simp at hfe
    · simp only at hfe
      rw [if_neg ht] at hfe
      cases hfe
      exact ⟨e, he, rfl, ht, rfl, rfl⟩

/-- C7 witness: an annotation-only entry is dropped; the kept entry's
timing values pass through unmodified. -/
theorem c7_witness :
    get_transcript [⟨"en".toList, false, false,
        [⟨"[Music]".toList, 0, 7⟩, ⟨"hi [x] there".toList, 5, 2⟩], false, []⟩] true =
      some (.seg (segmentsOf [⟨"[Music]".toList, 0, 7⟩, ⟨"hi [x] there".toList, 5, 2⟩])
        "en".toList false) ∧
    segmentsOf [⟨"[Music]".toList, 0, 7⟩, ⟨"hi [x] there".toList, 5, 2⟩] =
      ([⟨"[Music]".toList, 0, 7⟩, ⟨"hi [x] there".toList, 5, 2⟩] : List Entry).filterMap
        (fun e =>
          let t := trim (stripBrackets e.text)
          if t = [] then none else some ⟨t, e.start, e.duration⟩) ∧
    (∀ sg ∈ segmentsOf [⟨"[Music]".toList, 0, 7⟩, ⟨"hi [x] there".toList, 5, 2⟩],
      ∃ e ∈ ([⟨"[Music]".toList, 0, 7⟩, ⟨"hi [x] there".toList, 5, 2⟩] : List Entry),
        sg.text = trim (stripBrackets e.text) ∧ sg.text ≠ [] ∧
        sg.start = e.start ∧ sg.duration = e.duration) ∧
    ((segmentsOf [⟨"[Music]".toList, 0, 7⟩, ⟨"hi [x] there".toList, 5, 2⟩]).map
        fun sg => (sg.start, sg.duration)).Sublist
      (([⟨"[Music]".toList, 0, 7⟩, ⟨"hi [x] there".toList, 5, 2⟩] : List Entry).map
        fun e => (e.start, e.duration)) :=
  c7_segment_shape _
    ⟨[⟨"[Music]".toList, 0, 7⟩, ⟨"hi [x] there".toList, 5, 2⟩], "en".toList, false, false⟩
    (by decide)

/-- C8: a 200 upstream response with an empty candidate list, or whose
first candidate has no content parts, makes `generate_completion` raise a
500 `AIServiceError` — it never returns a success value in these cases. -/
theorem c8_empty_content_error (r : UpstreamResponse)
    (hstatus : r.status = 200)
    (hempty : r.candidates = [] ∨ ∃ cd rest, r.candidates = cd :: rest ∧ cd.parts = []) :
    (∃ m, generate_completion r = .error m 500) ∧ ∀ t, generate_completion r ≠ .ok t := by
  have hmain : ∃ m, generate_completion r = .error m 500 := by
    rcases hempty with hc | ⟨cd, rest, hc, hp⟩
    · exact ⟨"No response generated", by simp [generate_completion, hstatus, hc]⟩
    · exact ⟨"Empty response from AI", by simp [generate_completion, hstatus, hc, hp]⟩
  refine ⟨hmain, ?_⟩
  obtain ⟨m, hm⟩ := hmain
  intro t ht
  rw [hm] at ht
  exact absurd ht (by simp)

/-- C8 witness: HTTP 200 with an empty candidate list is an error, not an
empty success. -/
theorem c8_witness :
    (∃ m, generate_completion ⟨200, none, []⟩ = .error m 500) ∧
    ∀ t, generate_completion ⟨200, none, []⟩ ≠ .ok t :=
  c8_empty_content_error ⟨200, none, []⟩ rfl (Or.inl rfl)

/-- C9: the bracket-stripping operation of the transcript pipeline is
idempotent — stripping an already stripped string changes nothing, for
every string. -/
theorem c9_strip_idempotent (s : List Char) :
    stripBrackets (stripBrackets s) = stripBrackets s :=
  stripBrackets_idem s

/-- C10 (code bug): evaluation at the failing input.  A video whose only
caption track is manual English with the single entry "[Music]" resolves
without timestamps to the empty plain text — empty content — and the
endpoint then returns the generic 500 error body, not the 404
no-transcript body: the intended `raise NoTranscriptFound(video_id)`
constructs the library exception with one argument where its constructor
requires three, so the resulting `TypeError` is caught by the generic
handler instead of the 404 handler.  The content is still never returned
as a success. -/
theorem c10_empty_result_is_500 :
    get_transcript [⟨"en".toList, false, false, [⟨"[Music]".toList, 0, 1⟩], false, []⟩]
        false = some (.plain [] "en".toList false) ∧
    resultEmpty (.plain [] "en".toList false) = true ∧
    get_transcript_endpoint
        [⟨"en".toList, false, false, [⟨"[Music]".toList, 0, 1⟩], false, []⟩] false =
      .failure 500 "An error occurred while fetching the transcript" := by
  have hres : get_transcript
      [⟨"en".toList, false, false, [⟨"[Music]".toList, 0, 1⟩], false, []⟩] false =
      some (.plain [] "en".toList false) := by
    simp [get_transcript, chooseTrack, findTranscript, englishCodes, plainText,
      joinSpace, collapse, stripBrackets, findClose, trim, trimLeft, trimRight, isWS,
      List.dropWhile, List.find?, List.findSome?]
  refine ⟨hres, rfl, ?_⟩
  simp only [get_transcript_endpoint, hres]
  rfl

end YTBackend
